import Mathlib

/-!
# Verification of voice2minutes against its specification

Shallow embedding of the parts of the `voice2minutes` repository that the
frozen claims are about, together with theorems settling each claim.

Python strings are embedded as `List Char`; Python `datetime` values at the
granularity the claims need are embedded as a calendar date structure or as
integer timestamps (seconds); SQLite tables are embedded as lists of rows.
-/

namespace Voice2Minutes

/-! ## Basic Python string operations

`str.lower()` (per character, basic latin as in the source's ASCII filler
vocabulary), `str.split()` (split on whitespace runs, dropping empties),
`str.strip(chars)` (strip the given characters from both ends) and
`' '.join(...)`. -/

/-- Python whitespace test for `str.split()` / `str.strip()` (the characters
relevant to transcripts: space, tab, newline, carriage return, form feed,
vertical tab). -/
def isWs (c : Char) : Bool :=
  c = ' ' || c = '\t' || c = '\n' || c = '\r' || c = '\x0c' || c = '\x0b'

/-- Per-character lower-casing, embedding `str.lower()` on basic latin. -/
def lowerStr (s : List Char) : List Char :=
  s.map Char.toLower

/-- `s.strip()`: drop whitespace from both ends. -/
def pyStripWs (s : List Char) : List Char :=
  ((s.dropWhile isWs).reverse.dropWhile isWs).reverse

/-- Worker for `splitWs`: `acc` holds the current word, reversed. -/
def splitWsAux : List Char → List Char → List (List Char)
  | [], acc => if acc.isEmpty then [] else [acc.reverse]
  | c :: cs, acc =>
    if isWs c then
      if acc.isEmpty then splitWsAux cs [] else acc.reverse :: splitWsAux cs []
    else
      splitWsAux cs (c :: acc)

/-- `str.split()` with no arguments: split on runs of whitespace, dropping
empty pieces. -/
def splitWs (s : List Char) : List (List Char) :=
  splitWsAux s []

/-- `' '.join(words)`. -/
def joinSpace : List (List Char) → List Char
  | [] => []
  | [w] => w
  | w :: ws => w ++ ' ' :: joinSpace ws

/-! ## `app/services/preprocess.py` — `TextPreprocessor.remove_filler_words` -/

/-- The punctuation characters stripped per token:
`word = words[i].strip('.,!?;:')`. -/
def isTokenPunct (c : Char) : Bool :=
  c = '.' || c = ',' || c = '!' || c = '?' || c = ';' || c = ':'

/-- `token.strip('.,!?;:')`: strip those characters from both ends. -/
def stripPunct (s : List Char) : List Char :=
  ((s.dropWhile isTokenPunct).reverse.dropWhile isTokenPunct).reverse

/-- The filler vocabulary `TextPreprocessor.filler_words`. -/
def filler_words : List (List Char) :=
  ["um", "uh", "er", "ah", "like", "you know", "i mean", "sort of",
   "kind of", "basically", "actually", "literally", "obviously",
   "well", "so", "right", "okay", "alright", "yeah", "yes", "no"].map
    String.toList

/-- The token-scanning loop of `remove_filler_words`: at each position, first
try the two-token filler phrase (consuming both tokens when it matches), then
the single stripped token; a surviving position keeps the *original* token. -/
def filterFillerTokens : List (List Char) → List (List Char)
  | [] => []
  | [w] => if stripPunct w ∈ filler_words then [] else [w]
  | w :: w2 :: rest2 =>
    if (stripPunct w ++ ' ' :: stripPunct w2) ∈ filler_words then
      filterFillerTokens rest2
    else if stripPunct w ∈ filler_words then
      filterFillerTokens (w2 :: rest2)
    else
      w :: filterFillerTokens (w2 :: rest2)

/-- `TextPreprocessor.remove_filler_words`: lower-case, split on whitespace,
drop filler tokens/phrases, re-join with single spaces. -/
def remove_filler_words (text : List Char) : List Char :=
  joinSpace (filterFillerTokens (splitWs (lowerStr text)))

/-! ## `app/services/action_detector.py` — `ActionItemDetector`

The classifier itself (sentence embeddings + logistic regression) is an
opaque source of a probability; the claims are about the pure threshold
logic downstream of it, which we embed over an arbitrary probability
`p : ℚ`. -/

/-- The `is_action` flag computed in `predict_action_item`:
`is_action = probability > 0.5`. -/
def is_action (probability : ℚ) : Bool :=
  probability > 0.5

/-- The acceptance test in `extract_action_items_from_segments`:
`if prediction['is_action'] and prediction['confidence'] > 0.6`, where
`confidence` is the same classifier probability. -/
def acceptAsActionCandidate (probability : ℚ) : Bool :=
  is_action probability && probability > 0.6

/-- The skip test in `extract_action_items_from_segments`:
`if len(sentence.strip()) < 10: continue`. -/
def skipSentence (sentence : List Char) : Bool :=
  (pyStripWs sentence).length < 10

/-- The sentences of a segment that actually reach the classifier: those the
loop does not `continue` past. -/
def scoredSentences (sentences : List (List Char)) : List (List Char) :=
  sentences.filter (fun s => !skipSentence s)

/-- Number of non-whitespace characters of a sentence (the quantity the
spec's skip rule is phrased in terms of). -/
def countNonWs (sentence : List Char) : Nat :=
  (sentence.filter (fun c => !isWs c)).length

/-! ## `app/services/deadline_parser.py` — `DeadlineExtractor.classify_urgency`

`datetime` values are embedded as integer timestamps in seconds;
`(deadline - now).days` is Python `timedelta.days`, i.e. floor division of
the difference by 86400.  A missing deadline string and a string
`datetime.fromisoformat` rejects both take the `'low'` exit, so the parsed
deadline is embedded as `Option Int` (`none` = missing or unparseable). -/

/-- The `if`/`elif` cascade of `classify_urgency` on the computed
`days_until`. -/
def urgencyOfDays (days_until : Int) : String :=
  if days_until < 0 then "overdue"
  else if days_until = 0 then "urgent"
  else if days_until ≤ 3 then "high"
  else if days_until ≤ 7 then "medium"
  else "low"

/-- `DeadlineExtractor.classify_urgency`: `days_until = (deadline - now).days`
(Python `timedelta.days` floor-divides the difference by 86400 seconds). -/
def classify_urgency (now : Int) (deadline : Option Int) : String :=
  match deadline with
  | none => "low"
  | some d => urgencyOfDays (Int.fdiv (d - now) 86400)

/-- The urgency rules exactly as the specification words them: `< 0` →
overdue; `== 0` → urgent; `1 ≤ d ≤ 3` → high; `4 ≤ d ≤ 7` → medium; else
low; absent/unparseable → low. -/
def urgencySpec (now : Int) (deadline : Option Int) : String :=
  match deadline with
  | none => "low"
  | some d =>
    if Int.fdiv (d - now) 86400 < 0 then "overdue"
    else if Int.fdiv (d - now) 86400 = 0 then "urgent"
    else if 1 ≤ Int.fdiv (d - now) 86400 ∧ Int.fdiv (d - now) 86400 ≤ 3 then "high"
    else if 4 ≤ Int.fdiv (d - now) 86400 ∧ Int.fdiv (d - now) 86400 ≤ 7 then "medium"
    else "low"

/-! ## `app/services/deadline_parser.py` — `DeadlineExtractor.parse_relative_date`

Calendar arithmetic of Python `datetime`/`timedelta` at day granularity,
as a proleptic Gregorian date structure. -/

/-- A calendar date (the date part of a Python `datetime`). -/
structure Date where
  year : Int
  month : Nat
  day : Nat
deriving DecidableEq, Repr

/-- Gregorian leap-year rule (what Python's `datetime` uses). -/
def isLeapYear (y : Int) : Bool :=
  y % 4 = 0 && (y % 100 ≠ 0 || y % 400 = 0)

/-- Number of days of month `m` of year `y`. -/
def daysInMonth (y : Int) (m : Nat) : Nat :=
  if m = 2 then (if isLeapYear y then 29 else 28)
  else if m = 4 ∨ m = 6 ∨ m = 9 ∨ m = 11 then 30
  else 31

/-- The day after a given date. -/
def nextDay (d : Date) : Date :=
  if d.day < daysInMonth d.year d.month then ⟨d.year, d.month, d.day + 1⟩
  else if d.month < 12 then ⟨d.year, d.month + 1, 1⟩
  else ⟨d.year + 1, 1, 1⟩

/-- `d + timedelta(days=n)` for `n ≥ 0`. -/
def addDays (d : Date) : Nat → Date
  | 0 => d
  | n + 1 => addDays (nextDay d) n

/-- The day before a given date (`d - timedelta(days=1)`). -/
def prevDay (d : Date) : Date :=
  if 1 < d.day then ⟨d.year, d.month, d.day - 1⟩
  else if 1 < d.month then ⟨d.year, d.month - 1, daysInMonth d.year (d.month - 1)⟩
  else ⟨d.year - 1, 12, 31⟩

/-- Days in year `y` before month `m`. -/
def daysBeforeMonth (y : Int) (m : Nat) : Nat :=
  ((List.range (m - 1)).map (fun i => daysInMonth y (i + 1))).sum

/-- Proleptic Gregorian ordinal (Python `date.toordinal`):
January 1 of year 1 is ordinal 1. -/
def dateOrdinal (d : Date) : Int :=
  365 * (d.year - 1) + Int.fdiv (d.year - 1) 4 - Int.fdiv (d.year - 1) 100
    + Int.fdiv (d.year - 1) 400 + daysBeforeMonth d.year d.month + d.day

/-- Python `date.weekday()`: Monday = 0. -/
def pyWeekday (d : Date) : Nat :=
  ((dateOrdinal d - 1) % 7).toNat

/-- Consume an exact character sequence, returning the remainder. -/
def dropSeq : List Char → List Char → Option (List Char)
  | [], cs => some cs
  | _ :: _, [] => none
  | k :: ks, c :: cs => if c = k then dropSeq ks cs else none

/-- Does the haystack contain the needle as a contiguous run? -/
def containsSubList (needle : List Char) : List Char → Bool
  | [] => (dropSeq needle []).isSome
  | c :: cs => (dropSeq needle (c :: cs)).isSome || containsSubList needle cs

/-- `needle in haystack` on Python strings. -/
def containsSub (needle : String) (hay : List Char) : Bool :=
  containsSubList needle.toList hay

/-- Consume `\s+` (one or more whitespace characters). -/
def parseWs1 : List Char → Option (List Char)
  | [] => none
  | c :: cs => if isWs c then some (cs.dropWhile isWs) else none

/-- Consume `\d+`, returning its numeric value and the remainder. -/
def parseDigits (cs : List Char) : Option (Nat × List Char) :=
  match cs.takeWhile Char.isDigit with
  | [] => none
  | ds => some (ds.foldl (fun a c => 10 * a + (c.toNat - 48)) 0,
                cs.dropWhile Char.isDigit)

/-- The regex alternative `(days?|weeks?|months?)` combined with the
source's subsequent `'day' in unit` / `'week' in unit` / `'month' in unit`
dispatch: the matched unit's length in days (`timedelta(weeks=n)` is `7n`
days, months are approximated as 30 days). -/
def unitDays (cs : List Char) : Option Nat :=
  if (dropSeq "day".toList cs).isSome then some 1
  else if (dropSeq "week".toList cs).isSome then some 7
  else if (dropSeq "month".toList cs).isSome then some 30
  else none

/-- Try to match `kw\s+(\d+)\s+(days?|weeks?|months?)` at the head of the
text, returning the duration in days. -/
def matchDurationAt (kw : List Char) (cs : List Char) : Option Nat := do
  let r1 ← dropSeq kw cs
  let r2 ← parseWs1 r1
  let (n, r3) ← parseDigits r2
  let r4 ← parseWs1 r3
  let m ← unitDays r4
  return n * m

/-- `re.search` for the duration pattern: leftmost position where it
matches. -/
def searchDuration (kw : List Char) : List Char → Option Nat
  | [] => none
  | c :: cs =>
    match matchDurationAt kw (c :: cs) with
    | some n => some n
    | none => searchDuration kw cs

/-- `DeadlineExtractor.parse_relative_date`, at day granularity: lower-case
and strip the text, check the urgency indicators in dictionary insertion
order, then the explicit relative expressions in source order, then the
`in`/`within` duration patterns. -/
def parse_relative_date (text : List Char) (now : Date) : Option Date :=
  let t := pyStripWs (lowerStr text)
  if containsSub "asap" t then some (addDays now 0)
  else if containsSub "urgent" t then some (addDays now 1)
  else if containsSub "high priority" t then some (addDays now 2)
  else if containsSub "soon" t then some (addDays now 7)
  else if containsSub "eventually" t then some (addDays now 30)
  else if containsSub "today" t then some now
  else if containsSub "tomorrow" t then some (addDays now 1)
  else if containsSub "yesterday" t then some (prevDay now)
  else if containsSub "next week" t then some (addDays now 7)
  else if containsSub "this week" t then
    some (addDays now ((((4 : Int) - pyWeekday now) % 7).toNat))
  else if containsSub "next month" t then some (addDays now 30)
  else if containsSub "end of month" t then
    some (if now.month = 12 then prevDay ⟨now.year + 1, 1, 1⟩
          else prevDay ⟨now.year, now.month + 1, 1⟩)
  else
    match searchDuration "in".toList t with
    | some n => some (addDays now n)
    | none =>
      match searchDuration "within".toList t with
      | some n => some (addDays now n)
      | none => none

/-- The last day of the current month, i.e. the calendar month-boundary
computation the specification describes for the month expressions. -/
def endOfCurrentMonth (now : Date) : Date :=
  ⟨now.year, now.month, daysInMonth now.year now.month⟩

/-! ## `app/utils/text_utils.py` — `merge_consecutive_segments`

Transcript segments carry a speaker, start/end times (seconds, embedded as
`ℚ`) and a text. -/

/-- A transcript segment (the fields `merge_consecutive_segments` reads and
writes). -/
structure Segment where
  speaker : String
  start : ℚ
  «end» : ℚ
  text : String
deriving DecidableEq, Repr

/-- The merge test of `merge_consecutive_segments`: same speaker and
`next['start'] - current['end'] <= max_gap`. -/
def canMerge (max_gap : ℚ) (cur next : Segment) : Prop :=
  cur.speaker = next.speaker ∧ next.start - cur.«end» ≤ max_gap

instance (max_gap : ℚ) (cur next : Segment) : Decidable (canMerge max_gap cur next) :=
  inferInstanceAs (Decidable (_ ∧ _))

/-- The loop of `merge_consecutive_segments`, with `cur` the mutable
`current_segment`: on a merge the text is extended with `' ' + next.text`
and the end time becomes the next segment's end time. -/
def mergeGo (max_gap : ℚ) : Segment → List Segment → List Segment
  | cur, [] => [cur]
  | cur, next :: rest =>
    if canMerge max_gap cur next then
      mergeGo max_gap ⟨cur.speaker, cur.start, next.«end», cur.text ++ " " ++ next.text⟩ rest
    else
      cur :: mergeGo max_gap next rest

/-- `merge_consecutive_segments(segments, max_gap=2.0)`. -/
def merge_consecutive_segments (segments : List Segment) (max_gap : ℚ := 2.0) :
    List Segment :=
  match segments with
  | [] => []
  | s :: rest => mergeGo max_gap s rest

/-! ## `app/utils/db.py` — the SQLite store

The `actions` and `action_history` tables are embedded as lists of rows;
`CURRENT_TIMESTAMP` / `datetime('now')` become an explicit `now : Int`
(seconds; SQLite's text timestamps compare chronologically).  `NULL`able
columns become `Option`. -/

/-- A row of the `actions` table (the columns the claims touch). -/
structure ActionRow where
  id : Nat
  status : String
  completed_at : Option Int
  notes : Option String
deriving DecidableEq, Repr

/-- A row of the `action_history` table. -/
structure HistoryRow where
  action_id : Nat
  old_status : String
  new_status : String
  changed_by : Option String
  change_reason : Option String
  changed_at : Int
deriving DecidableEq, Repr

/-- The database state. -/
structure DBState where
  actions : List ActionRow
  history : List HistoryRow
deriving DecidableEq, Repr

/-- `SELECT status FROM actions WHERE id = ?` + `fetchone()`. -/
def findAction (s : DBState) (action_id : Nat) : Option ActionRow :=
  s.actions.find? (fun a => a.id == action_id)

/-- `db.mark_action_completed`: look the action up; if absent return
`False` with the store untouched; otherwise set its status to
`'completed'`, stamp `completed_at`, overwrite `notes`, append one history
row `(old_status, 'completed')`, and return `True` (the `rowcount` of the
`INSERT` is 1). -/
def mark_action_completed (s : DBState) (now : Int) (action_id : Nat)
    (completed_by : Option String) (notes : Option String) : Bool × DBState :=
  match findAction s action_id with
  | none => (false, s)
  | some row =>
    (true,
      { actions := s.actions.map (fun a =>
          if a.id == action_id then
            { a with status := "completed", completed_at := some now, notes := notes }
          else a),
        history := s.history ++
          [⟨action_id, row.status, "completed", completed_by,
            some "Marked as completed", now⟩] })

/-- `db.update_action_status`: like completion but with an arbitrary new
status, and without touching `completed_at` or `notes`. -/
def update_action_status (s : DBState) (now : Int) (action_id : Nat)
    (new_status : String) (changed_by : Option String) (reason : Option String) :
    Bool × DBState :=
  match findAction s action_id with
  | none => (false, s)
  | some row =>
    (true,
      { actions := s.actions.map (fun a =>
          if a.id == action_id then { a with status := new_status } else a),
        history := s.history ++
          [⟨action_id, row.status, new_status, changed_by, reason, now⟩] })

/-- The `WHERE` clause of the first `DELETE` of `cleanup_old_data`:
`status = 'completed' AND completed_at < datetime('now', '-{days} days')`
(a `NULL` `completed_at` never satisfies it). -/
def actionExpired (now : Int) (days_old : Nat) (a : ActionRow) : Bool :=
  a.status == "completed" &&
    match a.completed_at with
    | none => false
    | some t => t < now - 86400 * days_old

/-- The `WHERE` clause of the second `DELETE` of `cleanup_old_data`. -/
def historyExpired (now : Int) (days_old : Nat) (h : HistoryRow) : Bool :=
  h.changed_at < now - 86400 * days_old

/-- `db.cleanup_old_data(days_old=90)`: delete matching rows from both
tables and return `(deleted_actions, deleted_history)` row counts. -/
def cleanup_old_data (s : DBState) (now : Int) (days_old : Nat := 90) :
    (Nat × Nat) × DBState :=
  (((s.actions.filter (actionExpired now days_old)).length,
    (s.history.filter (historyExpired now days_old)).length),
   { actions := s.actions.filter (fun a => !actionExpired now days_old a),
     history := s.history.filter (fun h => !historyExpired now days_old h) })

/-! ## Helper lemmas -/

theorem toNat_ofNatAux (m : Nat) (h : m.isValidChar) :
    (Char.ofNatAux m h).toNat = m := by
  simp [Char.ofNatAux, Char.toNat, UInt32.toNat, BitVec.ofNatLt]

/-- `Char.toLower` (the per-character action of `str.lower()`) is
idempotent. -/
theorem toLower_idem (c : Char) : c.toLower.toLower = c.toLower := by
  simp only [Char.toLower]
  by_cases h : c.toNat ≥ 65 ∧ c.toNat ≤ 90
  · rw [if_pos h]
    have hvalid : (c.toNat + 32).isValidChar := Or.inl (by omega)
    have hn : (Char.ofNat (c.toNat + 32)).toNat = c.toNat + 32 := by
      rw [Char.ofNat, dif_pos hvalid]
      exact toNat_ofNatAux _ hvalid
    rw [hn, if_neg (by omega)]
  · rw [if_neg h, if_neg h]

/-- `mark_action_completed` on a present action, explicitly. -/
theorem mark_action_completed_found (s : DBState) (now : Int) (action_id : Nat)
    (cb notes : Option String) (a : ActionRow)
    (h : findAction s action_id = some a) :
    mark_action_completed s now action_id cb notes =
      (true,
        { actions := s.actions.map (fun x =>
            if x.id == action_id then
              { x with status := "completed", completed_at := some now, notes := notes }
            else x),
          history := s.history ++
            [⟨action_id, a.status, "completed", cb, some "Marked as completed", now⟩] }) := by
  unfold mark_action_completed
  rw [h]

/-- `update_action_status` on a present action, explicitly. -/
theorem update_action_status_found (s : DBState) (now : Int) (action_id : Nat)
    (new_status : String) (cb rsn : Option String) (a : ActionRow)
    (h : findAction s action_id = some a) :
    update_action_status s now action_id new_status cb rsn =
      (true,
        { actions := s.actions.map (fun x =>
            if x.id == action_id then { x with status := new_status } else x),
          history := s.history ++
            [⟨action_id, a.status, new_status, cb, rsn, now⟩] }) := by
  unfold update_action_status
  rw [h]

/-- `find?` by id commutes with an id-preserving update of the matching
rows. -/
theorem find?_map_update (l : List ActionRow) (action_id : Nat)
    (f : ActionRow → ActionRow) (hf : ∀ x, (f x).id = x.id)
    (a : ActionRow) (h : l.find? (fun x => x.id == action_id) = some a) :
    (l.map (fun x => if x.id == action_id then f x else x)).find?
      (fun x => x.id == action_id) = some (f a) := by
  induction l with
  | nil => simp at h
  | cons b t ih =>
    simp only [List.map_cons]
    by_cases hb : (b.id == action_id) = true
    · rw [List.find?_cons_of_pos (p := fun x : ActionRow => x.id == action_id) _ hb] at h
      injection h with h'
      subst h'
      rw [if_pos hb]
      exact List.find?_cons_of_pos (p := fun x : ActionRow => x.id == action_id) _
        (by simpa [hf b] using hb)
    · rw [List.find?_cons_of_neg (p := fun x : ActionRow => x.id == action_id) _ hb] at h
      rw [if_neg hb]
      rw [List.find?_cons_of_neg (p := fun x : ActionRow => x.id == action_id) _ hb]
      exact ih h

/-- Dropping a prefix of elements that all fail `p` (because they satisfy
`q`) does not change a `filter` by `p`. -/
theorem filter_dropWhile_of_excl {α : Type} (p q : α → Bool)
    (hpq : ∀ a, q a = true → p a = false) (l : List α) :
    (l.dropWhile q).filter p = l.filter p := by
  induction l with
  | nil => rfl
  | cons c cs ih =>
    by_cases hq : q c = true
    · rw [List.dropWhile_cons_of_pos hq, ih, List.filter_cons,
        if_neg (by simp [hpq c hq])]
    · rw [List.dropWhile_cons_of_neg hq]

/-- Whitespace-trimming keeps exactly the non-whitespace characters. -/
theorem filter_nonWs_pyStripWs (s : List Char) :
    (pyStripWs s).filter (fun c => !isWs c) = s.filter (fun c => !isWs c) := by
  unfold pyStripWs
  rw [List.filter_reverse, filter_dropWhile_of_excl _ isWs (fun a h => by simp [h]) _,
    List.filter_reverse, filter_dropWhile_of_excl _ isWs (fun a h => by simp [h]) _,
    List.reverse_reverse]

/-- The non-whitespace character count is a lower bound on the trimmed
length. -/
theorem countNonWs_le_striplen (s : List Char) :
    countNonWs s ≤ (pyStripWs s).length := by
  unfold countNonWs
  rw [← filter_nonWs_pyStripWs]
  exact List.length_filter_le _ _

/-! ## Claim theorems -/

/-- C1: a sentence scored by the Action Scorer is accepted as an
`ActionCandidate` iff the classifier probability is strictly greater than
0.6 (0.61 accepted, 0.60 rejected); the internal `is_action` flag uses the
separate strict threshold 0.5, so acceptance requires both `p > 0.5` and
`p > 0.6`. -/
theorem action_acceptance_threshold (p : ℚ) :
    (acceptAsActionCandidate p = true ↔ 0.6 < p) ∧
    (acceptAsActionCandidate p = true ↔ (0.5 < p ∧ 0.6 < p)) ∧
    (is_action p = true ↔ 0.5 < p) ∧
    acceptAsActionCandidate 0.61 = true ∧
    acceptAsActionCandidate 0.60 = false := by
  have hiff : ∀ q : ℚ, acceptAsActionCandidate q = true ↔ (0.5 < q ∧ 0.6 < q) := by
    intro q
    simp [acceptAsActionCandidate, is_action, gt_iff_lt]
  have h61 : acceptAsActionCandidate 0.61 = true :=
    (hiff 0.61).mpr ⟨by norm_num, by norm_num⟩
  have h60 : acceptAsActionCandidate 0.60 = false := by
    rw [← Bool.not_eq_true]
    intro hc
    exact absurd ((hiff 0.60).mp hc).2 (by norm_num)
  refine ⟨?_, hiff p, by simp [is_action, gt_iff_lt], h61, h60⟩
  rw [hiff p]
  exact ⟨fun h => h.2, fun h => ⟨lt_trans (by norm_num) h, h⟩⟩

/-- C2: urgency classification follows the spec's rules on
`days_until = (deadline - now).days`: negative → overdue, zero → urgent,
1–3 → high, 4–7 → medium, otherwise low; a missing or unparseable deadline
yields low. -/
theorem classify_urgency_matches_spec (now : Int) (deadline : Option Int) :
    classify_urgency now deadline = urgencySpec now deadline := by
  cases deadline with
  | none => rfl
  | some d =>
    simp only [classify_urgency, urgencySpec, urgencyOfDays]
    split_ifs <;> first | rfl | omega

/-- C9: for an `action_id` absent from the actions table,
`mark_action_completed` returns `False` and leaves the store unchanged. -/
theorem mark_action_completed_not_found (s : DBState) (now : Int)
    (action_id : Nat) (cb notes : Option String)
    (h : findAction s action_id = none) :
    mark_action_completed s now action_id cb notes = (false, s) := by
  unfold mark_action_completed
  rw [h]

/-- Witness for `mark_action_completed_not_found` at a concrete store. -/
theorem mark_action_completed_not_found_witness :
    findAction ⟨[⟨2, "open", none, none⟩], []⟩ 1 = none ∧
    mark_action_completed ⟨[⟨2, "open", none, none⟩], []⟩ 5 1 none none =
      (false, ⟨[⟨2, "open", none, none⟩], []⟩) :=
  ⟨rfl, mark_action_completed_not_found _ 5 1 none none rfl⟩

/-- C3: on an action present in the store, a status transition appends
exactly one `ActionHistory` row recording the old and the new status (for
both `update_action_status` and `mark_action_completed`), and a second
`mark_action_completed` still succeeds and appends exactly one more row
with `old_status = new_status = 'completed'`. -/
theorem status_transition_appends_one_history_row
    (s : DBState) (now now₂ : Int) (action_id : Nat)
    (cb notes : Option String) (new_status : String) (rsn : Option String)
    (a : ActionRow) (h : findAction s action_id = some a) :
    (update_action_status s now action_id new_status cb rsn).1 = true ∧
    (update_action_status s now action_id new_status cb rsn).2.history =
      s.history ++ [⟨action_id, a.status, new_status, cb, rsn, now⟩] ∧
    (mark_action_completed s now action_id cb notes).1 = true ∧
    (mark_action_completed s now action_id cb notes).2.history =
      s.history ++
        [⟨action_id, a.status, "completed", cb, some "Marked as completed", now⟩] ∧
    (mark_action_completed (mark_action_completed s now action_id cb notes).2
        now₂ action_id cb notes).1 = true ∧
    (mark_action_completed (mark_action_completed s now action_id cb notes).2
        now₂ action_id cb notes).2.history =
      (mark_action_completed s now action_id cb notes).2.history ++
        [⟨action_id, "completed", "completed", cb, some "Marked as completed", now₂⟩] := by
  have hu := update_action_status_found s now action_id new_status cb rsn a h
  have hm := mark_action_completed_found s now action_id cb notes a h
  have h2 : findAction (mark_action_completed s now action_id cb notes).2 action_id =
      some { a with status := "completed", completed_at := some now, notes := notes } := by
    rw [hm]
    exact find?_map_update s.actions action_id
      (fun x => { x with status := "completed", completed_at := some now, notes := notes })
      (fun _ => rfl) a h
  have hm2 := mark_action_completed_found _ now₂ action_id cb notes _ h2
  rw [hu, hm2, hm]
  exact ⟨rfl, rfl, rfl, rfl, rfl, rfl⟩

/-- Witness for `status_transition_appends_one_history_row` at a concrete
store: one open action with id 1, empty history. -/
theorem status_transition_appends_one_history_row_witness :
    findAction ⟨[⟨1, "open", none, none⟩], []⟩ 1 = some ⟨1, "open", none, none⟩ ∧
    ((update_action_status ⟨[⟨1, "open", none, none⟩], []⟩ 10 1 "in_progress" none none).1 = true ∧
     (update_action_status ⟨[⟨1, "open", none, none⟩], []⟩ 10 1 "in_progress" none none).2.history =
       [] ++ [⟨1, "open", "in_progress", none, none, 10⟩] ∧
     (mark_action_completed ⟨[⟨1, "open", none, none⟩], []⟩ 10 1 none none).1 = true ∧
     (mark_action_completed ⟨[⟨1, "open", none, none⟩], []⟩ 10 1 none none).2.history =
       [] ++ [⟨1, "open", "completed", none, some "Marked as completed", 10⟩] ∧
     (mark_action_completed
        (mark_action_completed ⟨[⟨1, "open", none, none⟩], []⟩ 10 1 none none).2
        20 1 none none).1 = true ∧
     (mark_action_completed
        (mark_action_completed ⟨[⟨1, "open", none, none⟩], []⟩ 10 1 none none).2
        20 1 none none).2.history =
       (mark_action_completed ⟨[⟨1, "open", none, none⟩], []⟩ 10 1 none none).2.history ++
         [⟨1, "completed", "completed", none, some "Marked as completed", 20⟩]) :=
  ⟨rfl, status_transition_appends_one_history_row ⟨[⟨1, "open", none, none⟩], []⟩
    10 20 1 none none "in_progress" none ⟨1, "open", none, none⟩ rfl⟩

/-- C8 (counterexample): with `days_old = 0`, a store holding no completed
action but one history row still has that history row deleted (1 row, not
0); and a currently-completed action whose `completed_at` is `NULL` (as
`update_action_status` leaves it) is *not* deleted. -/
theorem cleanup_zero_days_counterexample :
    (∀ a ∈ (⟨[⟨1, "open", none, none⟩],
              [⟨1, "open", "in_progress", none, none, 0⟩]⟩ : DBState).actions,
        a.status ≠ "completed") ∧
    (cleanup_old_data ⟨[⟨1, "open", none, none⟩],
        [⟨1, "open", "in_progress", none, none, 0⟩]⟩ 1 0).1 = (0, 1) ∧
    (cleanup_old_data ⟨[⟨2, "completed", none, none⟩], []⟩ 1 0).1 = (0, 0) ∧
    (cleanup_old_data ⟨[⟨2, "completed", none, none⟩], []⟩ 1 0).2.actions =
      [⟨2, "completed", none, none⟩] := by
  refine ⟨?_, rfl, rfl, rfl⟩
  intro a ha
  simp only [List.mem_singleton] at ha
  subst ha
  decide

/-- C8 (amended): retention cleanup with `days_old = 0` deletes exactly the
completed actions whose `completed_at` is set and strictly earlier than now
and exactly the history rows whose `changed_at` is strictly earlier than
now; a store with no completed actions *and no history rows* loses nothing
and the call succeeds with counts `(0, 0)`. -/
theorem cleanup_zero_days_behavior (s : DBState) (now : Int)
    (hA : ∀ a ∈ s.actions, a.status ≠ "completed") (hH : s.history = []) :
    ((cleanup_old_data s now 0).1 = (0, 0) ∧ (cleanup_old_data s now 0).2 = s) ∧
    (∀ a : ActionRow, actionExpired now 0 a = true ↔
      (a.status = "completed" ∧ ∃ t, a.completed_at = some t ∧ t < now)) ∧
    (∀ h : HistoryRow, historyExpired now 0 h = true ↔ h.changed_at < now) := by
  have hexp : ∀ a : ActionRow, actionExpired now 0 a = true ↔
      (a.status = "completed" ∧ ∃ t, a.completed_at = some t ∧ t < now) := by
    intro a
    unfold actionExpired
    cases hc : a.completed_at with
    | none => simp [hc]
    | some t => simp [hc]
  have hexpH : ∀ h : HistoryRow, historyExpired now 0 h = true ↔ h.changed_at < now := by
    intro h
    unfold historyExpired
    simp
  have hnone : ∀ a ∈ s.actions, actionExpired now 0 a = false := by
    intro a ha
    rw [← Bool.not_eq_true, hexp a]
    rintro ⟨hstat, -⟩
    exact hA a ha hstat
  obtain ⟨acts, hist⟩ := s
  replace hH : hist = [] := hH
  subst hH
  have h1 : acts.filter (actionExpired now 0) = [] :=
    List.filter_eq_nil_iff.mpr (fun a ha => by simp [hnone a ha])
  have h2 : acts.filter (fun a => !actionExpired now 0 a) = acts :=
    List.filter_eq_self.mpr (fun a ha => by simp [hnone a ha])
  refine ⟨⟨?_, ?_⟩, hexp, hexpH⟩
  · unfold cleanup_old_data
    rw [h1]
    rfl
  · unfold cleanup_old_data
    rw [h2]
    rfl

/-- Witness for `cleanup_zero_days_behavior`: a store with one open action
and no history. -/
theorem cleanup_zero_days_behavior_witness :
    (∀ a ∈ (⟨[⟨1, "open", none, none⟩], []⟩ : DBState).actions,
        a.status ≠ "completed") ∧
    ((cleanup_old_data ⟨[⟨1, "open", none, none⟩], []⟩ 7 0).1 = (0, 0) ∧
      (cleanup_old_data ⟨[⟨1, "open", none, none⟩], []⟩ 7 0).2 =
        ⟨[⟨1, "open", none, none⟩], []⟩) :=
  ⟨by intro a ha; simp only [List.mem_singleton] at ha; subst ha; decide,
   (cleanup_zero_days_behavior ⟨[⟨1, "open", none, none⟩], []⟩ 7
      (by intro a ha; simp only [List.mem_singleton] at ha; subst ha; decide)
      rfl).1⟩

/-- C6 (counterexample): the sentence `"a b c d e f"` has only 6
non-whitespace characters, yet it is *not* skipped (its whitespace-trimmed
length is 11 ≥ 10), so it is scored — refuting "skipped iff fewer than 10
non-whitespace characters". -/
theorem sentence_skip_counterexample :
    countNonWs "a b c d e f".toList < 10 ∧
    skipSentence "a b c d e f".toList = false ∧
    scoredSentences ["a b c d e f".toList] = ["a b c d e f".toList] := by
  refine ⟨by decide, by decide, by decide⟩

/-- C6 (amended): a sentence is skipped unconditionally iff its
whitespace-*trimmed* length (internal whitespace included) is below 10;
consequently every sentence with at least 10 non-whitespace characters is
scored. -/
theorem sentence_skip_rule (sentences : List (List Char)) (s : List Char) :
    (skipSentence s = true ↔ (pyStripWs s).length < 10) ∧
    (s ∈ scoredSentences sentences ↔ (s ∈ sentences ∧ 10 ≤ (pyStripWs s).length)) ∧
    (10 ≤ countNonWs s → s ∈ sentences → s ∈ scoredSentences sentences) := by
  have hmem : s ∈ scoredSentences sentences ↔
      (s ∈ sentences ∧ 10 ≤ (pyStripWs s).length) := by
    simp [scoredSentences, skipSentence, List.mem_filter, Nat.not_lt]
  refine ⟨by simp [skipSentence], hmem, fun h10 hs => ?_⟩
  exact hmem.mpr ⟨hs, le_trans h10 (countNonWs_le_striplen s)⟩

/-- Witness for `sentence_skip_rule`: a sentence with 20 non-whitespace
characters is scored. -/
theorem sentence_skip_rule_witness :
    10 ≤ countNonWs "please update the documentation".toList ∧
    "please update the documentation".toList ∈
      scoredSentences ["please update the documentation".toList] :=
  ⟨by decide,
   (sentence_skip_rule ["please update the documentation".toList]
      "please update the documentation".toList).2.2 (by decide)
     (by simp)⟩

/-! ### Lemmas about the tokenization pipeline -/

/-- `map f` fixes a list all of whose members `f` fixes. -/
theorem map_eq_self_of_mem {α : Type} {f : α → α} :
    ∀ {l : List α}, (∀ x ∈ l, f x = x) → l.map f = l
  | [], _ => rfl
  | x :: xs, h => by
    rw [List.map_cons, h x (List.mem_cons_self x xs),
      map_eq_self_of_mem (fun y hy => h y (List.mem_cons_of_mem x hy))]

/-- Every character of every token produced by `splitWsAux` comes from the
input or the accumulator. -/
theorem splitWsAux_chars (P : Char → Prop) :
    ∀ (cs acc : List Char), (∀ c ∈ cs, P c) → (∀ c ∈ acc, P c) →
      ∀ w ∈ splitWsAux cs acc, ∀ c ∈ w, P c := by
  intro cs
  induction cs with
  | nil =>
    intro acc _ hacc w hw c hc
    unfold splitWsAux at hw
    by_cases he : acc.isEmpty
    · simp [he] at hw
    · have he' : acc.isEmpty = false := by simpa using he
      rw [he', if_neg (by simp), List.mem_singleton] at hw
      subst hw
      exact hacc c (List.mem_reverse.mp hc)
  | cons d cs ih =>
    intro acc hcs hacc w hw c hc
    have hd : P d := hcs d (List.mem_cons_self d cs)
    have hcs' : ∀ x ∈ cs, P x := fun x hx => hcs x (List.mem_cons_of_mem d hx)
    unfold splitWsAux at hw
    by_cases hws : isWs d = true
    · rw [if_pos hws] at hw
      by_cases he : acc.isEmpty
      · rw [if_pos he] at hw
        exact ih [] hcs' (by simp) w hw c hc
      · rw [if_neg he] at hw
        rcases List.mem_cons.mp hw with hw | hw
        · subst hw
          exact hacc c (List.mem_reverse.mp hc)
        · exact ih [] hcs' (by simp) w hw c hc
    · rw [if_neg hws] at hw
      refine ih (d :: acc) hcs' ?_ w hw c hc
      intro x hx
      rcases List.mem_cons.mp hx with hx | hx
      · exact hx ▸ hd
      · exact hacc x hx

/-- `filterFillerTokens` only keeps tokens of its input. -/
theorem filterFillerTokens_subset :
    ∀ (l : List (List Char)), ∀ w ∈ filterFillerTokens l, w ∈ l
  | [] => by simp [filterFillerTokens]
  | [w0] => by
    intro w hw
    unfold filterFillerTokens at hw
    split at hw
    · simp at hw
    · simpa using hw
  | w0 :: w1 :: rest => by
    intro w hw
    unfold filterFillerTokens at hw
    split at hw
    · exact List.mem_cons_of_mem _ (List.mem_cons_of_mem _
        (filterFillerTokens_subset rest w hw))
    · split at hw
      · exact List.mem_cons_of_mem _ (filterFillerTokens_subset (w1 :: rest) w hw)
      · rcases List.mem_cons.mp hw with hw | hw
        · exact hw ▸ List.mem_cons_self _ _
        · exact List.mem_cons_of_mem _ (filterFillerTokens_subset (w1 :: rest) w hw)

/-- Every token surviving `filterFillerTokens` has a stripped form outside
the filler vocabulary. -/
theorem filterFillerTokens_not_filler :
    ∀ (l : List (List Char)), ∀ w ∈ filterFillerTokens l,
      stripPunct w ∉ filler_words
  | [] => by simp [filterFillerTokens]
  | [w0] => by
    intro w hw
    unfold filterFillerTokens at hw
    split at hw
    · simp at hw
    · rename_i hnot
      rw [List.mem_singleton] at hw
      exact hw ▸ hnot
  | w0 :: w1 :: rest => by
    intro w hw
    unfold filterFillerTokens at hw
    split at hw
    · exact filterFillerTokens_not_filler rest w hw
    · split at hw
      · exact filterFillerTokens_not_filler (w1 :: rest) w hw
      · rename_i hnot
        rcases List.mem_cons.mp hw with hw | hw
        · exact hw ▸ hnot
        · exact filterFillerTokens_not_filler (w1 :: rest) w hw

/-- Characters of a space-join come from the tokens or are the space. -/
theorem joinSpace_chars (P : Char → Prop) (hsp : P ' ') :
    ∀ (ts : List (List Char)), (∀ w ∈ ts, ∀ c ∈ w, P c) →
      ∀ c ∈ joinSpace ts, P c
  | [] => by simp [joinSpace]
  | [w] => by
    intro h c hc
    exact h w (List.mem_singleton_self w) c hc
  | w :: w2 :: ts => by
    intro h c hc
    unfold joinSpace at hc
    rcases List.mem_append.mp hc with hc | hc
    · exact h w (List.mem_cons_self _ _) c hc
    · rcases List.mem_cons.mp hc with hc | hc
      · exact hc ▸ hsp
      · exact joinSpace_chars P hsp (w2 :: ts)
          (fun v hv => h v (List.mem_cons_of_mem _ hv)) c hc

/-- Every character of the output of `remove_filler_words` is fixed by
lower-casing. -/
theorem remove_filler_words_chars_lower (text : List Char) :
    ∀ c ∈ remove_filler_words text, c.toLower = c := by
  intro c hc
  unfold remove_filler_words at hc
  refine joinSpace_chars (fun c => c.toLower = c) rfl _ ?_ c hc
  intro w hw d hd
  have hw' : w ∈ splitWs (lowerStr text) := filterFillerTokens_subset _ w hw
  refine splitWsAux_chars (fun c => c.toLower = c) (lowerStr text) [] ?_ (by simp)
    w hw' d hd
  intro x hx
  rcases List.mem_map.mp hx with ⟨y, -, hy⟩
  exact hy ▸ toLower_idem y

/-- C10: the output of `remove_filler_words` is fully lower-cased (the
surviving tokens are taken from the lower-cased token list), so the original
capitalization is already lost when the later pipeline stages (contraction
expansion, date standardization, sentence segmentation) run. -/
theorem remove_filler_words_lowercased (text : List Char) :
    lowerStr (remove_filler_words text) = remove_filler_words text :=
  map_eq_self_of_mem (remove_filler_words_chars_lower text)

/-- Tokens produced by `splitWsAux` are nonempty and whitespace-free. -/
theorem splitWsAux_tokens :
    ∀ (cs acc : List Char), (∀ c ∈ acc, isWs c = false) →
      ∀ w ∈ splitWsAux cs acc, w ≠ [] ∧ ∀ c ∈ w, isWs c = false := by
  intro cs
  induction cs with
  | nil =>
    intro acc hacc w hw
    unfold splitWsAux at hw
    by_cases he : acc.isEmpty
    · simp [he] at hw
    · have he' : acc.isEmpty = false := by simpa using he
      rw [he', if_neg (by simp), List.mem_singleton] at hw
      subst hw
      refine ⟨fun hnil => ?_, fun c hc => hacc c (List.mem_reverse.mp hc)⟩
      rw [List.reverse_eq_nil_iff] at hnil
      subst hnil
      simp at he'
  | cons d cs ih =>
    intro acc hacc w hw
    unfold splitWsAux at hw
    by_cases hws : isWs d = true
    · rw [if_pos hws] at hw
      by_cases he : acc.isEmpty
      · rw [if_pos he] at hw
        exact ih [] (by simp) w hw
      · rw [if_neg he] at hw
        rcases List.mem_cons.mp hw with hw | hw
        · subst hw
          refine ⟨fun hnil => ?_, fun c hc => hacc c (List.mem_reverse.mp hc)⟩
          rw [List.reverse_eq_nil_iff] at hnil
          subst hnil
          simp at he
        · exact ih [] (by simp) w hw
    · rw [if_neg hws] at hw
      refine ih (d :: acc) ?_ w hw
      intro x hx
      rcases List.mem_cons.mp hx with hx | hx
      · rw [hx, ← Bool.not_eq_true]
        exact hws
      · exact hacc x hx

/-- Tokens of `splitWs` are nonempty and whitespace-free. -/
theorem splitWs_tokens (s : List Char) :
    ∀ w ∈ splitWs s, w ≠ [] ∧ ∀ c ∈ w, isWs c = false :=
  splitWsAux_tokens s [] (by simp)

/-- `splitWsAux` consumes a whitespace-free block into the accumulator. -/
theorem splitWsAux_nonws_append :
    ∀ (t : List Char), (∀ c ∈ t, isWs c = false) →
      ∀ (r acc : List Char), splitWsAux (t ++ r) acc = splitWsAux r (t.reverse ++ acc)
  | [] => by intro _ r acc; simp
  | c :: t => by
    intro h r acc
    have hc : isWs c = false := h c (List.mem_cons_self c t)
    rw [List.cons_append]
    rw [show splitWsAux (c :: (t ++ r)) acc = splitWsAux (t ++ r) (c :: acc) from by
      simp only [splitWsAux, hc, Bool.false_eq_true, if_false]]
    rw [splitWsAux_nonws_append t (fun x hx => h x (List.mem_cons_of_mem c hx)) r (c :: acc)]
    simp

/-- Splitting undoes a single-space join of nonempty whitespace-free
tokens. -/
theorem splitWs_joinSpace :
    ∀ (ts : List (List Char)),
      (∀ w ∈ ts, w ≠ [] ∧ ∀ c ∈ w, isWs c = false) →
      splitWs (joinSpace ts) = ts
  | [] => by intro _; rfl
  | [t] => by
    intro h
    obtain ⟨hne, hws⟩ := h t (List.mem_singleton_self t)
    show splitWs t = [t]
    unfold splitWs
    rw [show t = t ++ [] from (List.append_nil t).symm, splitWsAux_nonws_append t hws [] []]
    unfold splitWsAux
    rw [if_neg (by simpa using hne)]
    simp
  | t :: t2 :: ts => by
    intro h
    obtain ⟨hne, hws⟩ := h t (List.mem_cons_self _ _)
    show splitWs (t ++ ' ' :: joinSpace (t2 :: ts)) = t :: t2 :: ts
    unfold splitWs
    rw [splitWsAux_nonws_append t hws _ []]
    show splitWsAux (' ' :: joinSpace (t2 :: ts)) (t.reverse ++ []) = t :: t2 :: ts
    unfold splitWsAux
    rw [if_pos (by decide)]
    rw [if_neg (by simpa using hne)]
    rw [List.append_nil, List.reverse_reverse]
    have := splitWs_joinSpace (t2 :: ts) (fun w hw => h w (List.mem_cons_of_mem t hw))
    unfold splitWs at this
    rw [this]

/-- `filterFillerTokens` fixes a token list with no single-token filler and
no adjacent two-token filler phrase. -/
theorem filterFillerTokens_of_clean :
    ∀ (l : List (List Char)),
      (∀ w ∈ l, stripPunct w ∉ filler_words) →
      List.Chain' (fun a b => stripPunct a ++ ' ' :: stripPunct b ∉ filler_words) l →
      filterFillerTokens l = l
  | [] => by intro _ _; rfl
  | [w] => by
    intro h _
    unfold filterFillerTokens
    rw [if_neg (h w (List.mem_singleton_self w))]
  | w0 :: w1 :: rest => by
    intro h hchain
    unfold filterFillerTokens
    rw [if_neg (List.chain'_cons.mp hchain).1]
    rw [if_neg (h w0 (List.mem_cons_self _ _))]
    rw [filterFillerTokens_of_clean (w1 :: rest)
      (fun w hw => h w (List.mem_cons_of_mem _ hw)) (List.chain'_cons.mp hchain).2]

/-- C5 (counterexample): filler removal is *not* a fixed point of itself:
`"you um know"` becomes `"you know"`, which a second pass deletes entirely
(removing `"um"` juxtaposed the two-token filler phrase `"you know"`). -/
theorem remove_filler_words_not_idempotent :
    remove_filler_words (remove_filler_words "you um know".toList) ≠
      remove_filler_words "you um know".toList := by
  decide

/-- C5 (amended): filler removal is a fixed point of itself on every text
whose output contains no adjacent token pair forming a two-token filler
phrase; in general a pass can juxtapose such a phrase and a second pass
removes it. -/
theorem remove_filler_words_conditional_fixed_point (text : List Char)
    (h : List.Chain' (fun a b => stripPunct a ++ ' ' :: stripPunct b ∉ filler_words)
      (splitWs (remove_filler_words text))) :
    remove_filler_words (remove_filler_words text) = remove_filler_words text := by
  have htoks : ∀ w ∈ filterFillerTokens (splitWs (lowerStr text)),
      w ≠ [] ∧ ∀ c ∈ w, isWs c = false :=
    fun w hw => splitWs_tokens (lowerStr text) w (filterFillerTokens_subset _ w hw)
  have hsplit : splitWs (remove_filler_words text) =
      filterFillerTokens (splitWs (lowerStr text)) :=
    splitWs_joinSpace _ htoks
  rw [hsplit] at h
  conv_lhs => rw [remove_filler_words]
  rw [show lowerStr (remove_filler_words text) = remove_filler_words text from
    remove_filler_words_lowercased text]
  rw [hsplit]
  rw [filterFillerTokens_of_clean _
    (fun w hw => filterFillerTokens_not_filler _ w hw) h]
  rfl

/-- Witness for `remove_filler_words_conditional_fixed_point`: the text
`"Hello there world"` (output `"hello there world"`, no two-token filler
adjacency). -/
theorem remove_filler_words_conditional_fixed_point_witness :
    List.Chain' (fun a b => stripPunct a ++ ' ' :: stripPunct b ∉ filler_words)
      (splitWs (remove_filler_words "Hello there world".toList)) ∧
    remove_filler_words (remove_filler_words "Hello there world".toList) =
      remove_filler_words "Hello there world".toList := by
  have hval : splitWs (remove_filler_words "Hello there world".toList) =
      ["hello".toList, "there".toList, "world".toList] := by decide
  have hch : List.Chain' (fun a b => stripPunct a ++ ' ' :: stripPunct b ∉ filler_words)
      (splitWs (remove_filler_words "Hello there world".toList)) := by
    rw [hval]
    exact List.chain'_cons.mpr ⟨by decide,
      List.chain'_cons.mpr ⟨by decide, List.chain'_singleton _⟩⟩
  exact ⟨hch, remove_filler_words_conditional_fixed_point "Hello there world".toList hch⟩

/-! ### Lemmas about segment merging -/

/-- Equation: the merge loop on an empty remainder. -/
theorem mergeGo_nil (g : ℚ) (cur : Segment) : mergeGo g cur [] = [cur] := rfl

/-- Equation: one step of the merge loop. -/
theorem mergeGo_cons (g : ℚ) (cur next : Segment) (rest : List Segment) :
    mergeGo g cur (next :: rest) =
      if canMerge g cur next then
        mergeGo g ⟨cur.speaker, cur.start, next.«end», cur.text ++ " " ++ next.text⟩ rest
      else cur :: mergeGo g next rest := rfl

/-- The first segment emitted by the merge loop keeps the speaker and start
time of the current segment. -/
theorem mergeGo_head (g : ℚ) :
    ∀ (rest : List Segment) (cur : Segment),
      ∃ e t tl, mergeGo g cur rest =
        ({ speaker := cur.speaker, start := cur.start, «end» := e, text := t } :
          Segment) :: tl
  | [], cur => ⟨cur.«end», cur.text, [], rfl⟩
  | next :: rest, cur => by
    by_cases h : canMerge g cur next
    · obtain ⟨e, t, tl, heq⟩ := mergeGo_head g rest
        ⟨cur.speaker, cur.start, next.«end», cur.text ++ " " ++ next.text⟩
      refine ⟨e, t, tl, ?_⟩
      rw [mergeGo_cons, if_pos h]
      exact heq
    · refine ⟨cur.«end», cur.text, mergeGo g next rest, ?_⟩
      rw [mergeGo_cons, if_neg h]

/-- The output of the merge loop has no two consecutive segments that could
still be merged. -/
theorem mergeGo_separated (g : ℚ) :
    ∀ (rest : List Segment) (cur : Segment),
      List.Chain' (fun a b => ¬ canMerge g a b) (mergeGo g cur rest)
  | [], cur => by
    rw [mergeGo_nil]
    exact List.chain'_singleton cur
  | next :: rest, cur => by
    by_cases h : canMerge g cur next
    · rw [mergeGo_cons, if_pos h]
      exact mergeGo_separated g rest _
    · rw [mergeGo_cons, if_neg h]
      obtain ⟨e, t, tl, heq⟩ := mergeGo_head g rest next
      rw [heq]
      refine List.chain'_cons.mpr ⟨?_, heq ▸ mergeGo_separated g rest next⟩
      intro hcm
      exact h ⟨hcm.1, hcm.2⟩

/-- The merge loop fixes a segment list in which no consecutive pair is
mergeable. -/
theorem mergeGo_of_separated (g : ℚ) :
    ∀ (rest : List Segment) (cur : Segment),
      List.Chain' (fun a b => ¬ canMerge g a b) (cur :: rest) →
      mergeGo g cur rest = cur :: rest
  | [], _ => fun _ => rfl
  | next :: rest, cur => by
    intro h
    obtain ⟨h1, h2⟩ := List.chain'_cons.mp h
    rw [mergeGo_cons, if_neg h1, mergeGo_of_separated g rest next h2]

/-- C4: merging is idempotent — re-running `merge_consecutive_segments` on
its own output with the same gap threshold returns that output unchanged —
and on a consecutive pair a merge happens exactly when the speakers agree
and `next.start - cur.end ≤ max_gap` (2.0 by default), joining the texts
with one space and taking the later segment's end time. -/
theorem merge_consecutive_segments_idempotent (segments : List Segment)
    (max_gap : ℚ) (a b : Segment) :
    merge_consecutive_segments (merge_consecutive_segments segments max_gap) max_gap =
      merge_consecutive_segments segments max_gap ∧
    merge_consecutive_segments [a, b] max_gap =
      (if a.speaker = b.speaker ∧ b.start - a.«end» ≤ max_gap then
        [⟨a.speaker, a.start, b.«end», a.text ++ " " ++ b.text⟩]
       else [a, b]) := by
  constructor
  · cases segments with
    | nil => rfl
    | cons s rest =>
      show merge_consecutive_segments (mergeGo max_gap s rest) max_gap =
        mergeGo max_gap s rest
      have hsep := mergeGo_separated max_gap rest s
      cases hgo : mergeGo max_gap s rest with
      | nil => rfl
      | cons hhead htail =>
        rw [hgo] at hsep
        exact mergeGo_of_separated max_gap htail hhead hsep
  · by_cases h : a.speaker = b.speaker ∧ b.start - a.«end» ≤ max_gap
    · rw [if_pos h]
      show mergeGo max_gap a [b] = _
      rw [mergeGo_cons, if_pos (show canMerge max_gap a b from h), mergeGo_nil]
    · rw [if_neg h]
      show mergeGo max_gap a [b] = _
      rw [mergeGo_cons, if_neg (show ¬ canMerge max_gap a b from h), mergeGo_nil]

set_option maxRecDepth 4000 in
/-- C7 (counterexample): at `now = 2026-02-01` the input `"next month"`
(which matches no earlier relative expression) parses to
`2026-03-03 = now + 30 days` — a fixed 30-day offset — and not the calendar
month-boundary value `2026-02-28`. -/
theorem next_month_fixed_offset_counterexample :
    parse_relative_date "next month".toList ⟨2026, 2, 1⟩ = some ⟨2026, 3, 3⟩ ∧
    addDays ⟨2026, 2, 1⟩ 30 = ⟨2026, 3, 3⟩ ∧
    endOfCurrentMonth ⟨2026, 2, 1⟩ = ⟨2026, 2, 28⟩ ∧
    some (⟨2026, 3, 3⟩ : Date) ≠ some (⟨2026, 2, 28⟩ : Date) := by
  decide

/-- The `'end of month'` branch of `parse_relative_date` — `datetime(year,
month+1, 1) - timedelta(days=1)`, with the December→January rollover — is
the last day of the current month. -/
theorem endOfMonthBranch_eq (now : Date) (h1 : 1 ≤ now.month) (h2 : now.month ≤ 12) :
    (if now.month = 12 then prevDay ⟨now.year + 1, 1, 1⟩
     else prevDay ⟨now.year, now.month + 1, 1⟩) = endOfCurrentMonth now := by
  by_cases h12 : now.month = 12
  · rw [if_pos h12]
    have hL : prevDay ⟨now.year + 1, 1, 1⟩ = ⟨now.year + 1 - 1, 12, 31⟩ := rfl
    rw [hL]
    unfold endOfCurrentMonth
    rw [h12]
    have h31 : daysInMonth now.year 12 = 31 := rfl
    rw [h31]
    have hyear : now.year + 1 - 1 = now.year := by omega
    rw [hyear]
  · rw [if_neg h12]
    have hL : prevDay ⟨now.year, now.month + 1, 1⟩ =
        ⟨now.year, now.month + 1 - 1, daysInMonth now.year (now.month + 1 - 1)⟩ := by
      unfold prevDay
      dsimp only
      rw [if_neg (by omega), if_pos (by omega)]
    rw [hL]
    rfl

/-- C7 (amended): for *every* input text in which none of the
earlier-checked relative expressions occurs (the urgency indicators in
dictionary order, then today/tomorrow/yesterday/next week/this week),
a text containing `'next month'` parses to the fixed day-offset
approximation `now + 30 days`, while a text containing `'end of month'`
(and not `'next month'`, checked earlier) is computed by calendar
month-boundary arithmetic: the last day of the current month, with the
December→January rollover handled correctly. -/
theorem month_expression_parsing (text : List Char) (now : Date)
    (h1 : 1 ≤ now.month) (h2 : now.month ≤ 12)
    (h3 : containsSub "asap" (pyStripWs (lowerStr text)) = false)
    (h4 : containsSub "urgent" (pyStripWs (lowerStr text)) = false)
    (h5 : containsSub "high priority" (pyStripWs (lowerStr text)) = false)
    (h6 : containsSub "soon" (pyStripWs (lowerStr text)) = false)
    (h7 : containsSub "eventually" (pyStripWs (lowerStr text)) = false)
    (h8 : containsSub "today" (pyStripWs (lowerStr text)) = false)
    (h9 : containsSub "tomorrow" (pyStripWs (lowerStr text)) = false)
    (h10 : containsSub "yesterday" (pyStripWs (lowerStr text)) = false)
    (h11 : containsSub "next week" (pyStripWs (lowerStr text)) = false)
    (h12 : containsSub "this week" (pyStripWs (lowerStr text)) = false) :
    (containsSub "next month" (pyStripWs (lowerStr text)) = true →
      parse_relative_date text now = some (addDays now 30)) ∧
    (containsSub "next month" (pyStripWs (lowerStr text)) = false →
      containsSub "end of month" (pyStripWs (lowerStr text)) = true →
      parse_relative_date text now = some (endOfCurrentMonth now)) := by
  constructor
  · intro hnm
    simp [parse_relative_date, h3, h4, h5, h6, h7, h8, h9, h10, h11, h12, hnm]
  · intro hnm hem
    rw [← endOfMonthBranch_eq now h1 h2]
    simp [parse_relative_date, h3, h4, h5, h6, h7, h8, h9, h10, h11, h12, hnm, hem]

/-- Witness for `month_expression_parsing`: the text `"next month"` at
`now = 2026-05-15` and the text `"by end of month"` at `now = 2026-12-10`
(exercising the December rollover). -/
theorem month_expression_parsing_witness :
    parse_relative_date "next month".toList ⟨2026, 5, 15⟩ =
      some (addDays ⟨2026, 5, 15⟩ 30) ∧
    parse_relative_date "by end of month".toList ⟨2026, 12, 10⟩ =
      some (endOfCurrentMonth ⟨2026, 12, 10⟩) :=
  ⟨(month_expression_parsing "next month".toList ⟨2026, 5, 15⟩ (by decide) (by decide)
      (by decide) (by decide) (by decide) (by decide) (by decide) (by decide)
      (by decide) (by decide) (by decide) (by decide)).1 (by decide),
   (month_expression_parsing "by end of month".toList ⟨2026, 12, 10⟩ (by decide) (by decide)
      (by decide) (by decide) (by decide) (by decide) (by decide) (by decide)
      (by decide) (by decide) (by decide) (by decide)).2 (by decide) (by decide)⟩

end Voice2Minutes
